import Mathlib

/-
  Verification of the boilmaster search subsystem.

  Shallow embedding of:
  - src/search/index/resolve.rs   (QueryResolver: resolve, resolve_leaf,
    resolve_relation, value_to_term)
  - src/search/search.rs          (Search::search pagination + non-fatal filter,
    Executor)
  - src/search/tantivy/index.rs   (Index::ingest, Index::search, sheet_documents,
    hydrate_row_document)
  - src/version/thaliak/provider.rs (Provider::patch_list)
  - src/http/api1/value.rs        (ValueReference::serialize_struct)

  Machine integers are modelled as Nat / Int with explicit bounds where they
  matter (u32 / u16 row keys as Fin (2^32) / Fin (2^16), i64 range checks
  against 2^63).  Fallible Rust code returns Except.  A Rust `todo!` panic is
  modelled as a dedicated fatal error constructor: both abort the enclosing
  call.
-/

namespace Boilmaster

/-- i64::MAX as a Nat. -/
def i64MaxNat : Nat := 2 ^ 63 - 1

/-- usize::MAX (64-bit platform) as a Nat. -/
def usizeMax : Nat := 2 ^ 64 - 1

/-! ## Error type

`src/search/error.rs` is not under `src/`; the shape below is modelled from
its uses in `resolve.rs` / `search.rs` / `index.rs` (variants `Failure`,
`SchemaMismatch(SchemaMismatchError)`, `FieldType(FieldTypeError)`) and from
the spec's fatal / non-fatal classification (spec §7).  `panic` models a Rust
`todo!` / `.unwrap()` panic, which unwinds through every caller and is
therefore classified fatal. -/

inductive SearchError where
  | failure (msg : String)
  | schemaMismatch (field reason : String)
  | fieldType (field expected got : String)
  | panic (msg : String)
deriving DecidableEq, Repr

/-- Fatal errors abort the enclosing call; non-fatal ones are dropped by the
filters in `Search::search` and `Index::search`. -/
def SearchError.isFatal : SearchError → Bool
  | .failure _ => true
  | .panic _ => true
  | .schemaMismatch _ _ => false
  | .fieldType _ _ _ => false

/-! ## Post-normalization query AST

`src/search/internal_query/post.rs` is not under `src/`; the shape is
modelled from its uses in `resolve.rs` (resolve matches `Node::Group` /
`Node::Leaf`; a leaf has a `field` and an `operation`; operations are
`Equal(Value)` and `Relation(..)`; a relation is accessed as
`relation.target.sheet`, `relation.query`, `relation.target.condition` — here
flattened into one structure). -/

inductive Occur where
  | must
  | should
  | mustNot
deriving DecidableEq, Repr

/-- Query-language literal: `Value::U64` is currently the only variant
(`value_to_u64` / `value_to_i64` in resolve.rs match exhaustively on it). -/
inductive Value where
  | u64 (v : Nat)
deriving DecidableEq, Repr

mutual

inductive Node where
  | group (clauses : List (Occur × Node))
  | leaf (field : String) (op : Operation)

inductive Operation where
  | equal (value : Value)
  | relation (rel : Relation)

inductive Relation where
  | mk (sheet : String) (query : Node) (condition : Option Node)

end

def Relation.sheet : Relation → String
  | .mk s _ _ => s

def Relation.query : Relation → Node
  | .mk _ q _ => q

def Relation.condition : Relation → Option Node
  | .mk _ _ c => c

/-! ## Tantivy-side model

Tantivy is an external library; its query constructors used by the code are
`TermQuery`, `TermSetQuery`, `BooleanQuery`, `ConstScoreQuery`.  Matching
semantics are modelled from the spec: a term query matches a document holding
that exact (field, value) term; a set query matches if the field value is in
the set (spec §4.4 "match if field value is in this set"); a boolean query
requires every Must clause, forbids every MustNot clause, and — when it has
no Must clause — requires at least one Should clause. -/

/-- A tantivy field handle (tantivy's `Field` is an index into the schema). -/
abbrev FieldId := Nat

/-- tantivy `Type` as inspected by `value_to_term` (`Type::U64`, `Type::I64`,
everything else falls into the `other => todo!` arm). -/
inductive TType where
  | u64
  | i64
  | str
  | f64
deriving DecidableEq, Repr

inductive TermValue where
  | u64 (v : Nat)
  | i64 (v : Int)
  | text (s : String)
  | f64bits (bits : Nat)
deriving DecidableEq, Repr

/-- tantivy `Term`: a field paired with a typed value. -/
structure Term where
  field : FieldId
  value : TermValue
deriving DecidableEq, Repr

inductive TOccur where
  | must
  | should
  | mustNot
deriving DecidableEq, Repr

inductive TQuery where
  | term (t : Term)
  | termSet (terms : List Term)
  | boolean (clauses : List (TOccur × TQuery))
  | constScore (inner : TQuery)

/-- An indexed document, as seen by query matching: the bag of terms it holds. -/
abbrev Doc := List Term

structure ClauseEval where
  hasMust : Bool
  allMust : Bool
  anyShould : Bool
  anyMustNot : Bool

mutual

/-- Modelled from the spec: tantivy query matching.  `termSet` is the spec's
set-membership query. -/
def docMatches : TQuery → Doc → Bool
  | .term t, d => d.contains t
  | .termSet ts, d => ts.any fun t => d.contains t
  | .constScore q, d => docMatches q d
  | .boolean cs, d =>
    let e := clausesEval cs d
    e.allMust && !e.anyMustNot && (e.hasMust || e.anyShould)

/-- Aggregate clause evaluation for a boolean query:
(hasMust, allMust, anyShould, anyMustNot). -/
def clausesEval : List (TOccur × TQuery) → Doc → ClauseEval
  | [], _ => ⟨false, true, false, false⟩
  | (o, q) :: rest, d =>
    let e := clausesEval rest d
    let m := docMatches q d
    match o with
    | .must => ⟨true, e.allMust && m, e.anyShould, e.anyMustNot⟩
    | .should => ⟨e.hasMust, e.allMust, e.anyShould || m, e.anyMustNot⟩
    | .mustNot => ⟨e.hasMust, e.allMust, e.anyShould, e.anyMustNot || m⟩

end

/-- `.collect::<Result<Vec<_>>>()`: first error aborts, otherwise the list of
successes. -/
def collectResults {α : Type} : List (Except SearchError α) →
    Except SearchError (List α)
  | [] => .ok []
  | .ok a :: rest => (collectResults rest).map fun as_ => a :: as_
  | .error e :: _ => .error e

/-! ## QueryResolver (src/search/index/resolve.rs) -/

/-- A search result as produced by the executor / `Index::search`
(src/search/tantivy/index.rs `IndexResult`): `row_id` is a `u32`,
`subrow_id` a `u16`.  The f32 `score` plays no role in any resolved
query and is not modelled (floating point is out of scope). -/
structure IndexResult where
  sheet_key : Nat
  row_id : Fin (2 ^ 32)
  subrow_id : Fin (2 ^ 16)
deriving DecidableEq

/-- The tantivy schema interface used by the resolver: `get_field`,
`get_field_entry(..).field_type().value_type()`, `get_field_name`. -/
structure TSchema where
  getField : String → Option FieldId
  fieldType : FieldId → TType
  fieldName : FieldId → String

/-- `QueryResolver`: the schema plus the executor handle.  The executor
(`crate::search::version::Executor`, not under src/) is modelled from the
spec as a function running an inner query against a sheet with **no result
limit** (spec §4.4 / §4.3: "no limit ⇒ effectively unbounded, used by
relation sub-queries that must see all matches"). -/
structure Resolver where
  schema : TSchema
  exec : String → Node → Except SearchError (List IndexResult)

/-- `format!("{value:?}")` for the error payload. -/
def valueDebug : Value → String
  | .u64 v => "U64(" ++ toString v ++ ")"

/-- `QueryResolver::value_to_u64`. -/
def value_to_u64 : Value → Option Nat
  | .u64 v => some v

/-- `QueryResolver::value_to_i64`: `u64 → i64` via `try_into`, i.e. succeeds
exactly when the value is within i64 range. -/
def value_to_i64 : Value → Option Int
  | .u64 v => if v ≤ i64MaxNat then some (Int.ofNat v) else none

/-- `QueryResolver::value_to_term`: dispatch on the field's value type;
`Type::U64` / `Type::I64` coerce through `value_to_u64` / `value_to_i64`
(a `None` becomes a `FieldType` error); any other type hits `todo!`
(modelled as a fatal `panic` error). -/
def value_to_term (r : Resolver) (value : Value) (field : FieldId) :
    Except SearchError Term :=
  let fieldType := r.schema.fieldType field
  match fieldType with
  | .u64 =>
    match value_to_u64 value with
    | some v => .ok ⟨field, .u64 v⟩
    | none =>
      .error (.fieldType ("field " ++ r.schema.fieldName field) "u64"
        (valueDebug value))
  | .i64 =>
    match value_to_i64 value with
    | some v => .ok ⟨field, .i64 v⟩
    | none =>
      .error (.fieldType ("field " ++ r.schema.fieldName field) "i64"
        (valueDebug value))
  | _ => .error (.panic "unimplemented field value type")

/-- `QueryResolver::resolve_relation`: run the inner query through the
executor, map every result's `row_id` (a u32, widened to u64) to a term,
then — after term collection, exactly as in the source — hit
`todo!("handle relationship conditions")` if a condition is present;
otherwise produce a `TermSetQuery`. -/
def resolve_relation (r : Resolver) (rel : Relation) (field : FieldId) :
    Except SearchError TQuery :=
  match r.exec rel.sheet rel.query with
  | .error e => .error e
  | .ok results =>
    match collectResults (results.map fun result =>
        value_to_term r (.u64 result.row_id.val) field) with
    | .error e => .error e
    | .ok terms =>
      if rel.condition.isSome then
        .error (.panic "handle relationship conditions")
      else
        .ok (.termSet terms)

/-- `column_field_name` (src/search/index/schema.rs, not under src/):
modelled from the spec as a deterministic injective naming of the leaf's
column reference; leaves are already carried as their column name string
here, so the map is the identity. -/
def column_field_name (column : String) : String := column

/-- `QueryResolver::resolve_leaf`: look the field up in the schema
(a miss is a non-fatal `SchemaMismatch`), then dispatch on the operation. -/
def resolve_leaf (r : Resolver) (field : String) (op : Operation) :
    Except SearchError TQuery :=
  let field_name := column_field_name field
  match r.schema.getField field_name with
  | none =>
    .error (.schemaMismatch ("field " ++ field_name)
      "field does not exist in search index")
  | some f =>
    match op with
    | .relation rel => resolve_relation r rel f
    | .equal value => (value_to_term r value f).map fun t => .term t

def tantivyOccur : Occur → TOccur
  | .must => .must
  | .should => .should
  | .mustNot => .mustNot

mutual

/-- `QueryResolver::resolve`. -/
def resolve (r : Resolver) : Node → Except SearchError TQuery
  | .group clauses => (resolveClauses r clauses).map fun cs => .boolean cs
  | .leaf field op => resolve_leaf r field op

/-- `QueryResolver::resolve_clause`'s traversal of a group's clauses
(the source's `map ... .collect::<Result<Vec<_>>>`). -/
def resolveClauses (r : Resolver) :
    List (Occur × Node) → Except SearchError (List (TOccur × TQuery))
  | [] => .ok []
  | (occur, node) :: rest => do
    let q ← resolve r node
    let qs ← resolveClauses r rest
    .ok ((tantivyOccur occur, q) :: qs)

end

/-! ## Search service (src/search/search.rs) -/

/-- `PaginationConfig` (u32 fields). -/
structure PaginationConfig where
  limit_default : Nat
  limit_max : Nat

/-- The effective result limit of `Search::search`
(src/search/search.rs:122-124): `limit.unwrap_or(limit_default).min(limit_max)`. -/
def resultLimit (limit : Option Nat) (cfg : PaginationConfig) : Nat :=
  (limit.getD cfg.limit_default).min cfg.limit_max

/-- The predicate of the non-fatal filters in `Search::search`
(search.rs:143-146) and `Index::search` (index.rs:126-129): keep `Ok(_)` and
`Err(Error::Failure(_))`, drop every other error.  A `panic` (a Rust
`todo!` / `unwrap` unwinding) is kept as well: it aborts the call no matter
what, which is what the fatal class models. -/
def keepEntry {α : Type} : Except SearchError α → Bool
  | .ok _ => true
  | .error e => e.isFatal

/-- `.filter(...)` of the non-fatal filters. -/
def filterNonFatal {α : Type} (xs : List (Except SearchError α)) :
    List (Except SearchError α) :=
  xs.filter keepEntry

/-- `Search::search`'s per-sheet normalization pipeline
(search.rs:137-147): normalize the query once per candidate sheet name, drop
entries that failed with a non-fatal error, abort on a fatal one.  The
`Normalizer` (src/search/internal_query, not under src/) is abstracted as a
function from the sheet name to a normalization outcome. -/
def normalizedQueries {α : Type} (normalize : String → Except SearchError α)
    (sheet_names : List String) : Except SearchError (List (String × α)) :=
  collectResults (filterNonFatal (sheet_names.map fun name =>
    (normalize name).map fun q => (name, q)))

/-- `Search::search` (search.rs:104-152): compute the effective limit,
normalize per sheet with non-fatal drop, then hand the surviving queries and
`Some(result_limit)` to the executor.  The provider behind the executor
(src/search/tantivy/provider.rs, not under src/) is abstracted as a
function. -/
def searchService {α β : Type} (cfg : PaginationConfig)
    (normalize : String → Except SearchError α) (sheet_names : List String)
    (provider : List (String × α) → Option Nat → Except SearchError (List β))
    (limit : Option Nat) : Except SearchError (List β) := do
  let result_limit := resultLimit limit cfg
  let qs ← normalizedQueries normalize sheet_names
  provider qs (some result_limit)

/-! ## Index (src/search/tantivy/index.rs) -/

/-- The sheet-key fencing clause of `Index::search` (index.rs:92-100):
a const-scored exact term query on the `sheet_key` field. -/
def sheetKeyQuery (field_sheet_key : FieldId) (sheet_key : Nat) : TQuery :=
  .constScore (.term ⟨field_sheet_key, .u64 sheet_key⟩)

/-- `Index::search`'s query compilation (index.rs:113-131): each
(sheet key, node) pair resolves to `Must [resolved, sheet-key filter]`,
combined under `Should`; non-fatal resolution errors are dropped, the first
fatal one aborts. -/
def indexCompileQueries (r : Resolver) (field_sheet_key : FieldId)
    (queries : List (Nat × Node)) :
    Except SearchError (List (TOccur × TQuery)) :=
  collectResults (filterNonFatal (queries.map fun kq =>
    (resolve r kq.2).map fun q =>
      (TOccur.should,
        TQuery.boolean [(.must, q), (.must, sheetKeyQuery field_sheet_key kq.1)])))

/-- The document limit of `Index::search` (index.rs:134-136):
`limit.map(usize::try_from(..).unwrap()).unwrap_or(usize::MAX)`; the
`try_from` is u32 → usize on a 64-bit platform and never fails. -/
def docLimit (limit : Option Nat) : Nat :=
  limit.getD usizeMax

/-- `TopDocs::with_limit(doc_limit)` execution, modelled from the spec over
the set of indexed documents: every matching document is a candidate and at
most `doc_limit` are returned (tantivy's score ordering is not modelled;
f32 scores are out of scope). -/
def topDocs (docs : List Doc) (query : TQuery) (doc_limit : Nat) : List Doc :=
  (docs.filter fun d => docMatches query d).take doc_limit

/-! ### Ingestion (index.rs `ingest`, `sheet_documents`, `hydrate_row_document`) -/

/-- ironworks `excel::Language` (external collaborator): an enumerated locale
tag; four representative variants. -/
inductive Language where
  | en
  | de
  | fr
  | ja
deriving DecidableEq, Repr

/-- Modelled from the spec: `data::LanguageString` (src/data, not under src/)
renders a language as its tag string. -/
def languageString : Language → String
  | .en => "en"
  | .de => "de"
  | .fr => "fr"
  | .ja => "ja"

/-- ironworks `excel::Field` (external collaborator), the runtime value of
one row cell.  The f32 payload is carried opaquely as its bit pattern. -/
inductive ExcelField where
  | string (v : String)
  | bool (v : Bool)
  | i8 (v : Int)
  | i16 (v : Int)
  | i32 (v : Int)
  | i64 (v : Int)
  | u8 (v : Nat)
  | u16 (v : Nat)
  | u32 (v : Nat)
  | u64 (v : Nat)
  | f32 (bits : Nat)
deriving DecidableEq, Repr

/-- The `add_text` / `add_i64` / `add_u64` / `add_f64` dispatch of
`hydrate_row_document` (index.rs:219-236): signed ints widen to i64,
unsigned ints widen to u64, `bool` widens to u64 (0 / 1), f32 to f64. -/
def fieldDocValue : ExcelField → TermValue
  | .string v => .text v
  | .bool v => .u64 (if v then 1 else 0)
  | .i8 v => .i64 v
  | .i16 v => .i64 v
  | .i32 v => .i64 v
  | .i64 v => .i64 v
  | .u8 v => .u64 v
  | .u16 v => .u64 v
  | .u32 v => .u64 v
  | .u64 v => .u64 v
  | .f32 bits => .f64bits bits

/-- One row of a sheet for one language: `row_id()` is a u32, `subrow_id()` a
u16, `field(column)` reads one cell and may fail (`row.field(column)?`). -/
structure Row where
  row_id : Fin (2 ^ 32)
  subrow_id : Fin (2 ^ 16)
  field : String → Except SearchError ExcelField

/-- An ironworks sheet handle as consumed by ingestion: `columns()?`,
`languages()?`, and a per-language row iterator
(`sheet.with().language(language).iter()`). -/
structure Sheet where
  name : String
  columns : Except SearchError (List String)
  languages : Except SearchError (List Language)
  rows : Language → List Row

/-- `column_field_name(column, language)` (src/search/tantivy/schema.rs, not
under src/): modelled from the spec as a deterministic, stable naming of a
(column, language) pair. -/
def column_field_name_lang (column : String) (language : Language) : String :=
  column ++ "_" ++ languageString language

/-- Fixed administrative field names (schema.rs constants, not under src/). -/
def SHEET_KEY : String := "sheet_key"

def ROW_ID : String := "row_id"

def SUBROW_ID : String := "subrow_id"

/-- `schema.get_field(name).unwrap()`: a miss is a panic (fatal). -/
def getFieldPanic (schema : TSchema) (name : String) :
    Except SearchError FieldId :=
  match schema.getField name with
  | some f => .ok f
  | none => .error (.panic ("get_field(" ++ name ++ ").unwrap()"))

/-- `hydrate_row_document` (index.rs:205-240): for every column, resolve its
per-language index field and append the cell value to the document. -/
def hydrate_row_document (schema : TSchema) (document : Doc) (row : Row)
    (columns : List String) (language : Language) : Except SearchError Doc :=
  columns.foldlM (fun doc column => do
    let field ← getFieldPanic schema (column_field_name_lang column language)
    let value ← row.field column
    .ok (doc ++ [⟨field, fieldDocValue value⟩])) document

/-- The composite row identity `(row_id, subrow_id)` keying document
accumulation. -/
abbrev RowKey := Fin (2 ^ 32) × Fin (2 ^ 16)

/-- The `HashMap<(u32, u16), Document>` of `sheet_documents`, modelled as an
association list (iteration order is fixed to first-insertion order; the
claims about it are order-independent). -/
abbrev DocMap := List (RowKey × Doc)

def lookupDoc (m : DocMap) (k : RowKey) : Option Doc :=
  (m.find? fun e => e.1 = k).map fun e => e.2

def insertDoc (m : DocMap) (k : RowKey) (d : Doc) : DocMap :=
  match m with
  | [] => [(k, d)]
  | e :: rest => if e.1 = k then (k, d) :: rest else e :: insertDoc rest k d

/-- `sheet_documents` (index.rs:170-203): for every language and every row,
`entry((row_id, subrow_id)).or_insert_with(Document::new)` then hydrate;
afterwards stamp every accumulated document with the partition key, row id
and subrow id, and return the map's values. -/
def sheet_documents (key : Nat) (sheet : Sheet) (schema : TSchema) :
    Except SearchError (List Doc) := do
  let columns ← sheet.columns
  let languages ← sheet.languages
  let documents ← languages.foldlM (fun m language =>
    (sheet.rows language).foldlM (fun m row => do
      let document := (lookupDoc m (row.row_id, row.subrow_id)).getD []
      let document ← hydrate_row_document schema document row columns language
      .ok (insertDoc m (row.row_id, row.subrow_id) document)) m) ([] : DocMap)
  let field_sheet_key ← getFieldPanic schema SHEET_KEY
  let field_row_id ← getFieldPanic schema ROW_ID
  let field_subrow_id ← getFieldPanic schema SUBROW_ID
  .ok (documents.map fun e =>
    e.2 ++ [⟨field_sheet_key, .u64 key⟩, ⟨field_row_id, .u64 e.1.1.val⟩,
      ⟨field_subrow_id, .u64 e.1.2.val⟩])

/-- `Index::ingest` (index.rs:58-78): one writer for the batch; a per-sheet
`sheet_documents` failure is logged and the sheet skipped (`continue`),
a success appends the sheet's documents (`writer.run`); a single commit at
the end publishes everything accumulated.  The tantivy writer itself is an
external collaborator and is modelled as the accumulated document list. -/
def ingest (schema : TSchema) (sheets : List (Nat × Sheet)) :
    Except SearchError (List Doc) :=
  .ok (sheets.foldl (fun writer ks =>
    match sheet_documents ks.1 ks.2 schema with
    | .ok documents => writer ++ documents
    | .error _ => writer) ([] : List Doc))

/-! ## Thaliak provider (src/version/thaliak/provider.rs) -/

/-- One patch entry of a version node in the GraphQL response. -/
structure PatchData where
  url : String
  size : Nat
deriving DecidableEq, Repr

/-- One version node of the GraphQL response (`repository_query`): its name
string, its patch files, the name strings of its prerequisite versions, and
its active flag. -/
structure VersionNode where
  version_string : String
  patches : List PatchData
  prerequisite_versions : List String
  is_active : Bool
deriving DecidableEq, Repr

/-- The repository data of the response: `latest_version.version_string` plus
the version list. -/
structure ResponseData where
  latest_version : String
  versions : List VersionNode
deriving DecidableEq, Repr

/-- `Patch` (provider.rs:8-14). -/
structure Patch where
  name : String
  url : String
  size : Nat
deriving DecidableEq, Repr

/-- The `HashMap` lookup of versions by name string (provider.rs:67-72).
`collect::<HashMap<_,_>>` keeps the last insertion for a duplicated key, so
the lookup finds the last node carrying the name. -/
def lookupVersion (versions : List VersionNode) (name : String) :
    Option VersionNode :=
  versions.reverse.find? fun v => v.version_string == name

/-- The active-prerequisite selection (provider.rs:98-113): sort descending
by version string (a stable sort) and take the first, i.e. keep the earliest
element carrying the maximal version string. -/
def selectNext (l : List VersionNode) : Option VersionNode :=
  l.foldl (fun acc v =>
    match acc with
    | none => some v
    | some w => if w.version_string < v.version_string then some v else some w)
    none

/-- `patches.push(Patch { name: version.version_string, .. })`
(provider.rs:89-94). -/
def nextPatches (patches : List Patch) (version : VersionNode)
    (patch : PatchData) : List Patch :=
  patches ++ [⟨version.version_string, patch.url, patch.size⟩]

/-- The prerequisite selection (provider.rs:96-113): drop names already
recorded in `patches2` (which already includes the current version's patch),
look the survivors up, keep the active ones, and take the string-wise
newest. -/
def nextVersion (versions : List VersionNode) (patches2 : List Patch)
    (version : VersionNode) : Option VersionNode :=
  selectNext (((version.prerequisite_versions.filter fun s =>
      !(patches2.any fun p => p.name == s)).filterMap
      (lookupVersion versions)).filter fun v => v.is_active)

/-- The body of `patch_list`'s `while let` walk (provider.rs:78-114), with
explicit fuel; `none` is fuel exhaustion (used only to state termination —
the theorem shows the fuel `patch_list` passes is never exhausted).
Each iteration: take this version's first patch file (no patches is an
error), record a `Patch` named by the version, then pick the next version
among its prerequisites, skipping names already recorded and inactive
versions. -/
def patchListGo (versions : List VersionNode) :
    Nat → List Patch → Option VersionNode →
    Option (Except String (List Patch))
  | 0, _, _ => none
  | _ + 1, patches, none => some (.ok patches)
  | fuel + 1, patches, some version =>
    match version.patches.head? with
    | none => some (.error ("no patches for version " ++ version.version_string))
    | some patch =>
      patchListGo versions fuel (nextPatches patches version patch)
        (nextVersion versions (nextPatches patches version patch) version)

/-- `Provider::patch_list` from the response data on (provider.rs:67-126):
walk the chain starting at the latest version, reverse the recorded patches
to oldest-first, and fail on an empty list (`NonEmpty::from_vec`). -/
def patch_list (data : ResponseData) : Option (Except String (List Patch)) :=
  (patchListGo data.versions (data.versions.length + 1) []
      (lookupVersion data.versions data.latest_version)).map fun r =>
    r.bind fun patches =>
      match patches.reverse with
      | [] => .error ("could not build patch list starting at " ++
          data.latest_version)
      | p :: ps => .ok (p :: ps)

/-! ## Struct value serialization (src/http/api1/value.rs) -/

/-- `read2::StructKey` (src/read2, not under src/; shape per its
destructuring in `serialize_struct`): a field name and the language the
field's value is in. -/
structure StructKey where
  name : String
  language : Language
deriving DecidableEq, Repr

/-- The serialized key of one struct entry (value.rs:117-120): the bare name
when the entry's language is the display language, `name@<language>`
otherwise. -/
def structKeyString (display : Language) (k : StructKey) : String :=
  if k.language = display then k.name
  else k.name ++ "@" ++ languageString k.language

/-- `sort_unstable_by(|a, b| a.0.cmp(&b.0))` (value.rs:126), modelled as a
deterministic (stable) insertion sort on the key string. -/
def insertSorted {V : Type} (a : String × V) :
    List (String × V) → List (String × V)
  | [] => [a]
  | b :: rest =>
    if b.1 < a.1 then b :: insertSorted a rest else a :: b :: rest

def sortByKey {V : Type} : List (String × V) → List (String × V)
  | [] => []
  | a :: rest => insertSorted a (sortByKey rest)

/-- `serialize_struct` (value.rs:106-139), up to the entry list it emits:
key every field by `structKeyString`, then sort by key.  The `HashMap`
iteration order is the input list order; the map itself is the same up to
permutation of that list. -/
def structEntries {V : Type} (display : Language)
    (fields : List (StructKey × V)) : List (String × V) :=
  sortByKey (fields.map fun kv => (structKeyString display kv.1, kv.2))

/-! ## Helper lemmas -/

theorem collectResults_map_ok {α β : Type} (f : α → Except SearchError β)
    (xs : List α) (ys : List β)
    (h : collectResults (xs.map f) = .ok ys) :
    (∀ y ∈ ys, ∃ x ∈ xs, f x = .ok y) ∧
    (∀ x ∈ xs, ∃ y ∈ ys, f x = .ok y) := by
  induction xs generalizing ys with
  | nil =>
    simp only [List.map_nil, collectResults] at h
    cases h
    simp
  | cons x rest ih =>
    simp only [List.map_cons] at h
    cases hfx : f x with
    | error e => rw [hfx] at h; simp [collectResults] at h
    | ok b =>
      rw [hfx] at h
      simp only [collectResults] at h
      cases hrest : collectResults (rest.map f) with
      | error e => rw [hrest] at h; simp [Except.map] at h
      | ok bs =>
        rw [hrest] at h
        simp only [Except.map] at h
        cases h
        obtain ⟨h1, h2⟩ := ih bs hrest
        constructor
        · intro y hy
          rcases List.mem_cons.mp hy with hy | hy
          · exact ⟨x, List.mem_cons_self .., hy ▸ hfx⟩
          · obtain ⟨x', hx', hfx'⟩ := h1 y hy
            exact ⟨x', List.mem_cons_of_mem _ hx', hfx'⟩
        · intro x' hx'
          rcases List.mem_cons.mp hx' with hx' | hx'
          · exact ⟨b, List.mem_cons_self .., hx' ▸ hfx⟩
          · obtain ⟨y, hy, hfy⟩ := h2 x' hx'
            exact ⟨y, List.mem_cons_of_mem _ hy, hfy⟩

theorem collectResults_map_error {α β : Type} (f : α → Except SearchError β)
    (xs : List α) (e : SearchError)
    (h : collectResults (xs.map f) = .error e) :
    ∃ x ∈ xs, f x = .error e := by
  induction xs with
  | nil => simp [collectResults] at h
  | cons x rest ih =>
    simp only [List.map_cons] at h
    cases hfx : f x with
    | error e' =>
      rw [hfx] at h
      simp only [collectResults] at h
      cases h
      exact ⟨x, List.mem_cons_self .., hfx⟩
    | ok b =>
      rw [hfx] at h
      simp only [collectResults] at h
      cases hrest : collectResults (rest.map f) with
      | error e' =>
        rw [hrest] at h
        simp only [Except.map] at h
        cases h
        obtain ⟨x', hx', hfx'⟩ := ih hrest
        exact ⟨x', List.mem_cons_of_mem _ hx', hfx'⟩
      | ok bs => rw [hrest] at h; simp [Except.map] at h

/-- The non-fatal drop pipeline on the success side: when every error in the
batch is non-fatal, the collect succeeds with exactly the successful
entries. -/
theorem pipeline_ok {α β : Type} (f : α → Except SearchError β) (xs : List α)
    (h : ∀ x ∈ xs, ∀ e, f x = .error e → e.isFatal = false) :
    collectResults (filterNonFatal (xs.map f)) =
      .ok (xs.filterMap fun x => (f x).toOption) := by
  induction xs with
  | nil => simp [filterNonFatal, collectResults]
  | cons x rest ih =>
    have hrest : ∀ x ∈ rest, ∀ e, f x = .error e → e.isFatal = false :=
      fun x' hx' => h x' (List.mem_cons_of_mem _ hx')
    cases hfx : f x with
    | ok b =>
      simp only [List.map_cons, filterNonFatal, List.filter_cons, hfx,
        keepEntry, List.filterMap_cons]
      simp only [filterNonFatal] at ih
      simp [collectResults, ih hrest, Except.map, hfx, Except.toOption]
    | error e =>
      have hnf : e.isFatal = false := h x (List.mem_cons_self ..) e hfx
      simp only [List.map_cons, filterNonFatal, List.filter_cons, hfx,
        keepEntry, hnf, List.filterMap_cons]
      simp only [filterNonFatal] at ih
      simp [ih hrest, hfx, Except.toOption]

/-- The non-fatal drop pipeline on the failure side: one fatal error anywhere
in the batch makes the collect fail, and with a fatal error. -/
theorem pipeline_fatal {α β : Type} (f : α → Except SearchError β)
    (xs : List α) (x : α) (hx : x ∈ xs) (e : SearchError)
    (he : f x = .error e) (hf : e.isFatal = true) :
    ∃ e', collectResults (filterNonFatal (xs.map f)) = .error e' ∧
      e'.isFatal = true := by
  induction xs with
  | nil => cases hx
  | cons y rest ih =>
    cases hfy : f y with
    | error ey =>
      by_cases hfat : ey.isFatal = true
      · refine ⟨ey, ?_, hfat⟩
        simp [List.map_cons, filterNonFatal, List.filter_cons, hfy, keepEntry,
          hfat, collectResults]
      · have hxrest : x ∈ rest := by
          rcases List.mem_cons.mp hx with rfl | hxr
          · rw [he] at hfy; cases hfy; exact absurd hf hfat
          · exact hxr
        obtain ⟨e', he', hf'⟩ := ih hxrest
        refine ⟨e', ?_, hf'⟩
        simp only [List.map_cons, filterNonFatal, List.filter_cons, hfy,
          keepEntry, Bool.false_eq_true] at *
        simp only [eq_false_of_ne_true hfat, if_false]
        exact he'
    | ok b =>
      have hxrest : x ∈ rest := by
        rcases List.mem_cons.mp hx with rfl | hxr
        · rw [he] at hfy; cases hfy
        · exact hxr
      obtain ⟨e', he', hf'⟩ := ih hxrest
      refine ⟨e', ?_, hf'⟩
      simp only [List.map_cons, filterNonFatal, List.filter_cons, hfy,
        keepEntry, if_true] at *
      simp only [collectResults, he', Except.map]

/-! ## C3 -/

/-- C3: for every `Search::search` call the effective limit is
`min(requested ?? limit_default, limit_max)`, that value (wrapped in `Some`)
is exactly what the executor / provider receives, and any truncation to it
yields at most `min(requested ?? limit_default, limit_max)` results. -/
theorem pagination_limit (cfg : PaginationConfig) (limit : Option Nat) :
    resultLimit limit cfg = min (limit.getD cfg.limit_default) cfg.limit_max ∧
    (∀ n, limit = some n → resultLimit limit cfg = min n cfg.limit_max) ∧
    (limit = none →
      resultLimit limit cfg = min cfg.limit_default cfg.limit_max) ∧
    (∀ (α β : Type) (normalize : String → Except SearchError α)
      (sheet_names : List String)
      (provider : List (String × α) → Option Nat → Except SearchError (List β)),
      searchService cfg normalize sheet_names provider limit =
        (normalizedQueries normalize sheet_names).bind fun qs =>
          provider qs (some (resultLimit limit cfg))) ∧
    (∀ (β : Type) (hits : List β),
      (hits.take (resultLimit limit cfg)).length ≤
        min (limit.getD cfg.limit_default) cfg.limit_max) := by
  refine ⟨rfl, ?_, ?_, ?_, ?_⟩
  · rintro n rfl; rfl
  · rintro rfl; rfl
  · intro α β normalize sheet_names provider
    simp only [searchService, resultLimit, bind, Except.bind]
  · intro β hits
    exact le_trans (List.length_take_le _ _) (le_of_eq rfl)

/-- Witness for C3 at a concrete configuration. -/
theorem pagination_limit_witness :
    resultLimit (some 7) ⟨10, 5⟩ = min 7 5 ∧
    resultLimit none ⟨10, 5⟩ = min 10 5 := by
  refine ⟨(pagination_limit ⟨10, 5⟩ (some 7)).2.1 7 rfl, ?_⟩
  exact (pagination_limit ⟨10, 5⟩ none).2.2.1 rfl

/-! ## C7 -/

/-- C7: `value_to_term` coerces an unsigned literal into a u64 field
unconditionally; into an i64 field exactly when the value is within i64
range, failing with a non-fatal field-type error otherwise; and any other
field storage type is an unimplemented-type (`todo!`) failure, which is
fatal. -/
theorem value_to_term_coercion (r : Resolver) (v : Value) (f : FieldId) :
    (r.schema.fieldType f = .u64 →
      ∃ n, v = .u64 n ∧ value_to_term r v f = .ok ⟨f, .u64 n⟩) ∧
    (∀ n, v = .u64 n → r.schema.fieldType f = .i64 →
      (n ≤ i64MaxNat →
        value_to_term r v f = .ok ⟨f, .i64 (Int.ofNat n)⟩) ∧
      (i64MaxNat < n →
        ∃ e, value_to_term r v f = .error e ∧ e.isFatal = false)) ∧
    (r.schema.fieldType f ≠ .u64 → r.schema.fieldType f ≠ .i64 →
      ∃ e, value_to_term r v f = .error e ∧ e.isFatal = true) := by
  obtain ⟨n⟩ := v
  refine ⟨?_, ?_, ?_⟩
  · intro hu
    exact ⟨n, rfl, by simp [value_to_term, hu, value_to_u64]⟩
  · rintro n' ⟨rfl⟩ hi
    constructor
    · intro hle
      simp [value_to_term, hi, value_to_i64, hle]
    · intro hlt
      refine ⟨.fieldType ("field " ++ r.schema.fieldName f) "i64"
        (valueDebug (.u64 n)), ?_, rfl⟩
      simp [value_to_term, hi, value_to_i64, Nat.not_le.mpr hlt]
  · intro hu hi
    refine ⟨.panic "unimplemented field value type", ?_, rfl⟩
    cases ht : r.schema.fieldType f with
    | u64 => exact absurd ht hu
    | i64 => exact absurd ht hi
    | str => simp [value_to_term, ht]
    | f64 => simp [value_to_term, ht]

/-- Witness for C7: against an i64 field, `2^63` is out of i64 range and
rejected with a non-fatal field-type error while `5` is accepted. -/
theorem value_to_term_coercion_witness :
    value_to_term ⟨⟨fun _ => some 0, fun _ => .i64, fun _ => "c"⟩,
        fun _ _ => .ok []⟩ (.u64 (2 ^ 63)) 0 =
      .error (.fieldType "field c" "i64" (valueDebug (.u64 (2 ^ 63)))) ∧
    (SearchError.fieldType "field c" "i64"
      (valueDebug (.u64 (2 ^ 63)))).isFatal = false ∧
    value_to_term ⟨⟨fun _ => some 0, fun _ => .i64, fun _ => "c"⟩,
        fun _ _ => .ok []⟩ (.u64 5) 0 = .ok ⟨0, .i64 (Int.ofNat 5)⟩ := by
  obtain ⟨e, he, hf⟩ := ((value_to_term_coercion ⟨⟨fun _ => some 0,
    fun _ => .i64, fun _ => "c"⟩, fun _ _ => .ok []⟩ (.u64 (2 ^ 63)) 0).2.1
    (2 ^ 63) rfl rfl).2 (by norm_num [i64MaxNat])
  have heval : value_to_term ⟨⟨fun _ => some 0, fun _ => .i64, fun _ => "c"⟩,
      fun _ _ => .ok []⟩ (.u64 (2 ^ 63)) 0 =
      .error (.fieldType "field c" "i64" (valueDebug (.u64 (2 ^ 63)))) := by
    simp [value_to_term, value_to_i64, i64MaxNat]
  refine ⟨heval, ?_, ?_⟩
  · rw [heval] at he
    injection he with h2
    rw [← h2] at hf
    exact hf
  · exact ((value_to_term_coercion ⟨⟨fun _ => some 0, fun _ => .i64,
      fun _ => "c"⟩, fun _ _ => .ok []⟩ (.u64 5) 0).2.1 5 rfl rfl).1
      (by norm_num [i64MaxNat])

/-! ## C8 -/

/-- C8: with no limit supplied, `Index::search` uses `usize::MAX` as the
document limit — the maximum representable count — so the truncation step
keeps every matching document (for any index whose document count is
representable). -/
theorem missing_limit_max :
    docLimit none = usizeMax ∧
    ∀ (docs : List Doc) (query : TQuery), docs.length ≤ usizeMax →
      topDocs docs query (docLimit none) =
        docs.filter fun d => docMatches query d := by
  refine ⟨rfl, fun docs query hlen => ?_⟩
  simp only [topDocs, docLimit, Option.getD]
  exact List.take_of_length_le (le_trans (List.length_filter_le _ _) hlen)

/-- Witness for C8 on a one-document index. -/
theorem missing_limit_max_witness :
    topDocs [[⟨0, .u64 5⟩]] (.term ⟨0, .u64 5⟩) (docLimit none) =
      [[⟨0, .u64 5⟩]] := by
  have h := missing_limit_max.2 [[⟨0, .u64 5⟩]] (.term ⟨0, .u64 5⟩)
    (by simp [usizeMax])
  simpa [docMatches] using h

/-! ## C2 -/

/-- C2: in a multi-sheet search, a per-sheet unit failing non-fatally —
whether at normalization (`Search::search`) or at index-query compilation
(`Index::search`) — is dropped while the remaining units survive and no
error is raised; a fatal `Failure` from any unit aborts the call with a
fatal error. -/
theorem non_fatal_isolation {α : Type} (normalize : String → Except SearchError α)
    (sheet_names : List String) (r : Resolver) (field_sheet_key : FieldId)
    (queries : List (Nat × Node)) :
    ((∀ name ∈ sheet_names, ∀ e, normalize name = .error e →
        e.isFatal = false) →
      normalizedQueries normalize sheet_names =
        .ok (sheet_names.filterMap fun name =>
          (normalize name).toOption.map fun q => (name, q))) ∧
    (∀ name ∈ sheet_names, ∀ e, normalize name = .error e → e.isFatal = true →
      ∃ e', normalizedQueries normalize sheet_names = .error e' ∧
        e'.isFatal = true) ∧
    ((∀ kq ∈ queries, ∀ e, resolve r kq.2 = .error e → e.isFatal = false) →
      indexCompileQueries r field_sheet_key queries =
        .ok (queries.filterMap fun kq =>
          (resolve r kq.2).toOption.map fun q =>
            (TOccur.should, TQuery.boolean
              [(.must, q), (.must, sheetKeyQuery field_sheet_key kq.1)]))) ∧
    (∀ kq ∈ queries, ∀ e, resolve r kq.2 = .error e → e.isFatal = true →
      ∃ e', indexCompileQueries r field_sheet_key queries = .error e' ∧
        e'.isFatal = true) := by
  refine ⟨?_, ?_, ?_, ?_⟩
  · intro h
    rw [normalizedQueries,
      pipeline_ok (fun name => (normalize name).map fun q => (name, q))
        sheet_names]
    · congr 1
      apply List.filterMap_congr
      intro name _
      cases hn : normalize name <;> simp [Except.map, Except.toOption]
    · intro name hname e he
      cases hn : normalize name with
      | ok q => rw [hn] at he; simp [Except.map] at he
      | error e2 =>
        rw [hn] at he
        simp only [Except.map, Except.error.injEq] at he
        subst he
        exact h name hname e2 hn
  · intro name hname e he hf
    exact pipeline_fatal _ sheet_names name hname e (by simp [Except.map, he])
      hf
  · intro h
    rw [indexCompileQueries,
      pipeline_ok (fun kq => (resolve r kq.2).map fun q =>
        (TOccur.should, TQuery.boolean
          [(.must, q), (.must, sheetKeyQuery field_sheet_key kq.1)])) queries]
    · congr 1
      apply List.filterMap_congr
      intro kq _
      cases hn : resolve r kq.2 <;> simp [Except.map, Except.toOption]
    · intro kq hkq e he
      cases hn : resolve r kq.2 with
      | ok q => rw [hn] at he; simp [Except.map] at he
      | error e2 =>
        rw [hn] at he
        simp only [Except.map, Except.error.injEq] at he
        subst he
        exact h kq hkq e2 hn
  · intro kq hkq e he hf
    exact pipeline_fatal _ queries kq hkq e (by simp [Except.map, he]) hf

/-- Witness for C2: three candidate sheets where the middle one fails
normalization with a (non-fatal) schema mismatch; the other two survive and
the call succeeds. -/
theorem non_fatal_isolation_witness :
    normalizedQueries (fun name =>
        if name = "b" then .error (.schemaMismatch "f" "missing")
        else .ok name) ["a", "b", "c"] =
      .ok [("a", "a"), ("c", "c")] := by
  have h := (non_fatal_isolation (fun name =>
      if name = "b" then .error (.schemaMismatch "f" "missing")
      else .ok name) ["a", "b", "c"]
      ⟨⟨fun _ => none, fun _ => .u64, fun _ => ""⟩, fun _ _ => .ok []⟩ 0 []).1
  have hnf : ∀ name ∈ ["a", "b", "c"], ∀ e : SearchError,
      (if name = "b" then Except.error (SearchError.schemaMismatch "f" "missing")
       else Except.ok name) = .error e → e.isFatal = false := by
    intro name hname e he
    simp only [List.mem_cons, List.not_mem_nil, or_false] at hname
    rcases hname with rfl | rfl | rfl
    · rw [if_neg (by decide)] at he
      exact Except.noConfusion he
    · rw [if_pos rfl] at he
      injection he with h2
      subst h2
      rfl
    · rw [if_neg (by decide)] at he
      exact Except.noConfusion he
  rw [h hnf]
  rfl

/-! ## C6 -/

/-- A row id (a u32, hence within i64 range) always coerces into a u64 or an
i64 field; so the only `value_to_term` errors reachable from
`resolve_relation`'s term collection are the fatal `todo!` on other field
types. -/
theorem value_to_term_rowid_fatal (r : Resolver) (f : FieldId) (n : Nat)
    (hn : n < 2 ^ 32) (e : SearchError)
    (he : value_to_term r (.u64 n) f = .error e) : e.isFatal = true := by
  have hle : n ≤ i64MaxNat := by
    simp only [i64MaxNat]
    omega
  cases ht : r.schema.fieldType f with
  | u64 => simp [value_to_term, ht, value_to_u64] at he
  | i64 => simp [value_to_term, ht, value_to_i64, hle] at he
  | str =>
    simp only [value_to_term, ht, Except.error.injEq] at he
    subst he
    rfl
  | f64 =>
    simp only [value_to_term, ht, Except.error.injEq] at he
    subst he
    rfl

/-- C6: a relation leaf whose target carries a condition never resolves
successfully; provided the executor only reports fatal errors upward (the
index layer swallows non-fatal sub-query errors, spec §4.3/§4.5), its
resolution always fails with a fatal error — the condition is never
silently ignored. -/
theorem relation_condition_fatal (r : Resolver) (rel : Relation) (f : FieldId)
    (hcond : rel.condition.isSome = true)
    (hexec : ∀ e, r.exec rel.sheet rel.query = .error e → e.isFatal = true) :
    ∃ e, resolve_relation r rel f = .error e ∧ e.isFatal = true := by
  cases hres : r.exec rel.sheet rel.query with
  | error e =>
    refine ⟨e, ?_, hexec e hres⟩
    simp [resolve_relation, hres, Except.bind]
  | ok results =>
    cases hterms : collectResults (results.map fun result =>
        value_to_term r (.u64 result.row_id.val) f) with
    | error e =>
      obtain ⟨res, _, hterm⟩ := collectResults_map_error _ _ _ hterms
      refine ⟨e, ?_,
        value_to_term_rowid_fatal r f res.row_id.val res.row_id.isLt e hterm⟩
      simp [resolve_relation, hres, hterms, Except.bind]
    | ok terms =>
      refine ⟨.panic "handle relationship conditions", ?_, rfl⟩
      simp [resolve_relation, hres, hterms, Except.bind, hcond]

def condWitnessResolver : Resolver :=
  ⟨⟨fun _ => some 0, fun _ => .u64, fun _ => "c"⟩, fun _ _ => .ok []⟩

def condWitnessRelation : Relation :=
  .mk "B" (.leaf "c" (.equal (.u64 0))) (some (.leaf "c" (.equal (.u64 0))))

/-- Witness for C6: a concrete relation with a present condition fails
fatally. -/
theorem relation_condition_fatal_witness :
    resolve_relation condWitnessResolver condWitnessRelation 0 =
      .error (.panic "handle relationship conditions") ∧
    (SearchError.panic "handle relationship conditions").isFatal = true := by
  obtain ⟨e, he, hf⟩ := relation_condition_fatal condWitnessResolver
    condWitnessRelation 0 rfl (fun e he => Except.noConfusion he)
  have heval : resolve_relation condWitnessResolver condWitnessRelation 0 =
      .error (.panic "handle relationship conditions") := rfl
  refine ⟨heval, ?_⟩
  rw [heval] at he
  injection he with h2
  rw [← h2] at hf
  exact hf

/-! ## C1 -/

/-- C1: once a relation leaf resolves successfully, the compiled query is a
set-membership query over the row ids of the rows the executor's unlimited
inner search returned for `target.query` on `target.sheet`: a document
matches iff it holds, on the leaf's field, the coerced term of some inner
result's row id. -/
theorem relation_leaf_membership (r : Resolver) (rel : Relation) (f : FieldId)
    (q : TQuery) (h : resolve_relation r rel f = .ok q) (doc : Doc) :
    docMatches q doc = true ↔
      ∃ results, r.exec rel.sheet rel.query = .ok results ∧
        ∃ res ∈ results, ∃ t,
          value_to_term r (.u64 res.row_id.val) f = .ok t ∧ t ∈ doc := by
  cases hres : r.exec rel.sheet rel.query with
  | error e => simp [resolve_relation, hres, Except.bind] at h
  | ok results =>
    cases hterms : collectResults (results.map fun result =>
        value_to_term r (.u64 result.row_id.val) f) with
    | error e => simp [resolve_relation, hres, hterms, Except.bind] at h
    | ok terms =>
      cases hcond : rel.condition.isSome with
      | true => simp [resolve_relation, hres, hterms, Except.bind, hcond] at h
      | false =>
        have hq : q = .termSet terms := by
          simp only [resolve_relation, hres, hterms, Except.bind, hcond,
            Bool.false_eq_true, if_false, Except.ok.injEq] at h
          exact h.symm
        subst hq
        obtain ⟨h1, h2⟩ := collectResults_map_ok _ _ _ hterms
        simp only [docMatches, List.any_eq_true]
        constructor
        · rintro ⟨t, ht, hcont⟩
          obtain ⟨res, hresmem, hterm⟩ := h1 t ht
          exact ⟨results, rfl, res, hresmem, t, hterm, by simpa using hcont⟩
        · rintro ⟨results2, hres2, res, hresmem, t, hterm, hdoc⟩
          injection hres2 with hres2
          subst hres2
          obtain ⟨t2, ht2, hterm2⟩ := h2 res hresmem
          rw [hterm] at hterm2
          injection hterm2 with hterm2
          subst hterm2
          exact ⟨t, ht2, by simpa using hdoc⟩

def relWitnessResolver : Resolver :=
  ⟨⟨fun _ => some 0, fun _ => .u64, fun _ => "c"⟩,
    fun _ _ => .ok [⟨7, ⟨5, by norm_num⟩, ⟨0, by norm_num⟩⟩]⟩

def relWitnessRelation : Relation :=
  .mk "B" (.leaf "c" (.equal (.u64 2))) none

/-- Witness for C1: the inner search returns row 5; a document holding term
(field 0, u64 5) matches the compiled set query. -/
theorem relation_leaf_membership_witness :
    docMatches (.termSet [⟨0, .u64 5⟩]) [⟨0, .u64 5⟩] = true := by
  refine (relation_leaf_membership relWitnessResolver relWitnessRelation 0
    (.termSet [⟨0, .u64 5⟩]) rfl [⟨0, .u64 5⟩]).mpr ?_
  exact ⟨[⟨7, ⟨5, by norm_num⟩, ⟨0, by norm_num⟩⟩], rfl,
    ⟨7, ⟨5, by norm_num⟩, ⟨0, by norm_num⟩⟩, by simp, ⟨0, .u64 5⟩, rfl,
    by simp⟩

/-! ## C5 -/

/-- The documents one batch entry contributes: its sheet's documents on
success, nothing when document building failed (the skip branch). -/
def sheetDocsOrEmpty (schema : TSchema) (ks : Nat × Sheet) : List Doc :=
  match sheet_documents ks.1 ks.2 schema with
  | .ok documents => documents
  | .error _ => []

theorem ingest_foldl_eq (schema : TSchema) (sheets : List (Nat × Sheet))
    (acc : List Doc) :
    sheets.foldl (fun writer ks =>
      match sheet_documents ks.1 ks.2 schema with
      | .ok documents => writer ++ documents
      | .error _ => writer) acc =
    acc ++ sheets.flatMap (sheetDocsOrEmpty schema) := by
  induction sheets generalizing acc with
  | nil => simp
  | cons ks rest ih =>
    simp only [List.foldl_cons, List.flatMap_cons, sheetDocsOrEmpty]
    cases hks : sheet_documents ks.1 ks.2 schema with
    | ok documents => rw [ih]; simp
    | error e => rw [ih]; simp

/-- C5: a per-sheet document-build failure inside `Index::ingest` skips only
that sheet; the batch's commit still contains every other sheet's documents,
in order, and the ingest call succeeds. -/
theorem ingest_skip_policy (schema : TSchema) (pre post : List (Nat × Sheet))
    (key : Nat) (bad : Sheet) (e : SearchError)
    (hbad : sheet_documents key bad schema = .error e) :
    ingest schema (pre ++ (key, bad) :: post) =
      .ok ((pre ++ post).flatMap (sheetDocsOrEmpty schema)) ∧
    ingest schema (pre ++ (key, bad) :: post) =
      ingest schema (pre ++ post) := by
  have hmain : ingest schema (pre ++ (key, bad) :: post) =
      .ok ((pre ++ post).flatMap (sheetDocsOrEmpty schema)) := by
    simp only [ingest, ingest_foldl_eq, List.nil_append, List.flatMap_append,
      List.flatMap_cons, Except.ok.injEq]
    have hskip : sheetDocsOrEmpty schema (key, bad) = [] := by
      simp [sheetDocsOrEmpty, hbad]
    rw [hskip]
    simp
  refine ⟨hmain, ?_⟩
  rw [hmain]
  simp [ingest, ingest_foldl_eq]

def badSheet : Sheet :=
  ⟨"bad", .error (.failure "io"), .ok [], fun _ => []⟩

def goodRow : Row :=
  ⟨⟨1, by norm_num⟩, ⟨0, by norm_num⟩, fun _ => .ok (.u8 3)⟩

def goodSheet : Sheet :=
  ⟨"good", .ok ["c"], .ok [.en], fun _ => [goodRow]⟩

def flatSchema : TSchema :=
  ⟨fun _ => some 0, fun _ => .u64, fun _ => "f"⟩

/-- Witness for C5: a failing sheet first in the batch does not stop the
following sheet from being ingested and committed. -/
theorem ingest_skip_policy_witness :
    ingest flatSchema [(9, badSheet), (3, goodSheet)] =
      .ok [[⟨0, .u64 3⟩, ⟨0, .u64 3⟩, ⟨0, .u64 1⟩, ⟨0, .u64 0⟩]] := by
  have h := (ingest_skip_policy flatSchema [] [(3, goodSheet)] 9 badSheet
    (.failure "io") rfl).1
  simpa using h

/-! ## C4 -/

theorem exceptBindOk {E α β : Type} (a : α) (k : α → Except E β) :
    (Except.ok a >>= k) = k a := rfl

theorem exceptBindError {E α β : Type} (e : E) (k : α → Except E β) :
    ((Except.error e : Except E α) >>= k) = .error e := rfl

/-- The keys of the accumulation map. -/
def docMapKeys (m : DocMap) : List RowKey := m.map fun e => e.1

theorem insertDoc_keys (m : DocMap) (k : RowKey) (d : Doc) (k' : RowKey) :
    k' ∈ docMapKeys (insertDoc m k d) ↔ k' ∈ docMapKeys m ∨ k' = k := by
  induction m with
  | nil => simp [insertDoc, docMapKeys]
  | cons e rest ih =>
    simp only [insertDoc]
    by_cases hek : e.1 = k
    · rw [if_pos hek]
      subst hek
      simp only [docMapKeys, List.map_cons, List.mem_cons] at *
      tauto
    · rw [if_neg hek]
      simp only [docMapKeys, List.map_cons, List.mem_cons] at *
      tauto

theorem insertDoc_nodup (m : DocMap) (k : RowKey) (d : Doc)
    (h : (docMapKeys m).Nodup) : (docMapKeys (insertDoc m k d)).Nodup := by
  induction m with
  | nil => simp [insertDoc, docMapKeys]
  | cons e rest ih =>
    simp only [docMapKeys, List.map_cons, List.nodup_cons] at h
    obtain ⟨hnotin, hrest⟩ := h
    simp only [insertDoc]
    by_cases hek : e.1 = k
    · rw [if_pos hek]
      simp only [docMapKeys, List.map_cons, List.nodup_cons]
      exact ⟨hek ▸ hnotin, hrest⟩
    · rw [if_neg hek]
      simp only [docMapKeys, List.map_cons, List.nodup_cons]
      refine ⟨?_, ih hrest⟩
      intro hmem
      rcases (insertDoc_keys rest k d e.1).mp hmem with hm | hm
      · exact hnotin hm
      · exact hek hm

/-- Invariant of the per-language row loop of `sheet_documents`: on success
the accumulated keys are exactly the starting keys plus the processed rows'
keys, and key distinctness is preserved. -/
theorem rowsFold_keys (schema : TSchema) (columns : List String)
    (language : Language) (rows : List Row) (m m' : DocMap)
    (h : rows.foldlM (fun m row => do
        let document ← hydrate_row_document schema
          ((lookupDoc m (row.row_id, row.subrow_id)).getD []) row columns
          language
        Except.ok (insertDoc m (row.row_id, row.subrow_id) document)) m =
      .ok m') :
    (∀ k, k ∈ docMapKeys m' ↔ k ∈ docMapKeys m ∨
      k ∈ rows.map fun row => (row.row_id, row.subrow_id)) ∧
    ((docMapKeys m).Nodup → (docMapKeys m').Nodup) := by
  induction rows generalizing m with
  | nil =>
    simp only [List.foldlM_nil] at h
    cases h
    simp
  | cons row rest ih =>
    simp only [List.foldlM_cons] at h
    cases hh : hydrate_row_document schema
        ((lookupDoc m (row.row_id, row.subrow_id)).getD []) row columns
        language with
    | error e =>
      rw [hh, exceptBindError, exceptBindError] at h
      exact Except.noConfusion h
    | ok document =>
      rw [hh, exceptBindOk, exceptBindOk] at h
      obtain ⟨ihmem, ihnd⟩ := ih _ h
      constructor
      · intro k
        rw [ihmem k, insertDoc_keys]
        simp only [List.map_cons, List.mem_cons]
        tauto
      · intro hnd
        exact ihnd (insertDoc_nodup m _ document hnd)

/-- Invariant of the language loop of `sheet_documents`. -/
theorem langsFold_keys (schema : TSchema) (columns : List String)
    (rowsOf : Language → List Row) (languages : List Language) (m m' : DocMap)
    (h : languages.foldlM (fun m language =>
        (rowsOf language).foldlM (fun m row => do
          let document ← hydrate_row_document schema
            ((lookupDoc m (row.row_id, row.subrow_id)).getD []) row columns
            language
          Except.ok (insertDoc m (row.row_id, row.subrow_id) document)) m) m =
      .ok m') :
    (∀ k, k ∈ docMapKeys m' ↔ k ∈ docMapKeys m ∨
      k ∈ languages.flatMap fun language =>
        (rowsOf language).map fun row => (row.row_id, row.subrow_id)) ∧
    ((docMapKeys m).Nodup → (docMapKeys m').Nodup) := by
  induction languages generalizing m with
  | nil =>
    simp only [List.foldlM_nil] at h
    cases h
    simp
  | cons language rest ih =>
    simp only [List.foldlM_cons] at h
    cases hrows : (rowsOf language).foldlM (fun m row => do
        let document ← hydrate_row_document schema
          ((lookupDoc m (row.row_id, row.subrow_id)).getD []) row columns
          language
        Except.ok (insertDoc m (row.row_id, row.subrow_id) document)) m with
    | error e =>
      rw [hrows, exceptBindError] at h
      exact Except.noConfusion h
    | ok m1 =>
      rw [hrows, exceptBindOk] at h
      obtain ⟨hmem1, hnd1⟩ := rowsFold_keys schema columns language _ m m1 hrows
      obtain ⟨hmem2, hnd2⟩ := ih _ h
      constructor
      · intro k
        rw [hmem2 k]
        simp only [List.flatMap_cons, List.mem_append]
        rw [hmem1 k]
        tauto
      · intro hnd
        exact hnd2 (hnd1 hnd)

/-- All (row_id, subrow_id) pairs a sheet presents across the given
languages, with multiplicity. -/
def allRowKeys (sheet : Sheet) (languages : List Language) : List RowKey :=
  languages.flatMap fun language =>
    (sheet.rows language).map fun row => (row.row_id, row.subrow_id)

/-- C4: a successful `sheet_documents` run builds exactly one document per
distinct (row_id, subrow_id) pair across all of the sheet's languages; every
produced document carries the partition key and the row / subrow ids of a
pair present in the sheet, and every present pair is represented. -/
theorem sheet_documents_accumulation (key : Nat) (sheet : Sheet)
    (schema : TSchema) (docs : List Doc) (columns : List String)
    (languages : List Language) (hc : sheet.columns = .ok columns)
    (hl : sheet.languages = .ok languages) (fsk frid fsid : FieldId)
    (hfsk : schema.getField SHEET_KEY = some fsk)
    (hfrid : schema.getField ROW_ID = some frid)
    (hfsid : schema.getField SUBROW_ID = some fsid)
    (h : sheet_documents key sheet schema = .ok docs) :
    docs.length = (allRowKeys sheet languages).dedup.length ∧
    (∀ d ∈ docs, ⟨fsk, .u64 key⟩ ∈ d ∧
      ∃ rk ∈ allRowKeys sheet languages,
        ⟨frid, .u64 rk.1.val⟩ ∈ d ∧ ⟨fsid, .u64 rk.2.val⟩ ∈ d) ∧
    (∀ rk ∈ allRowKeys sheet languages, ∃ d ∈ docs,
      ⟨frid, .u64 rk.1.val⟩ ∈ d ∧ ⟨fsid, .u64 rk.2.val⟩ ∈ d ∧
      ⟨fsk, .u64 key⟩ ∈ d) := by
  simp only [sheet_documents, hc, hl, exceptBindOk] at h
  cases hfold : languages.foldlM (fun m language =>
      (sheet.rows language).foldlM (fun m row => do
        let document ← hydrate_row_document schema
          ((lookupDoc m (row.row_id, row.subrow_id)).getD []) row columns
          language
        Except.ok (insertDoc m (row.row_id, row.subrow_id) document)) m)
      ([] : DocMap) with
  | error e =>
    rw [hfold, exceptBindError] at h
    exact Except.noConfusion h
  | ok m =>
    rw [hfold, exceptBindOk] at h
    simp only [getFieldPanic, hfsk, hfrid, hfsid, exceptBindOk,
      Except.ok.injEq] at h
    subst h
    obtain ⟨hmem0, hnd0⟩ :=
      langsFold_keys schema columns sheet.rows languages [] m hfold
    have hmem : ∀ k, k ∈ docMapKeys m ↔ k ∈ allRowKeys sheet languages := by
      intro k
      rw [hmem0 k]
      simp [docMapKeys, allRowKeys]
    have hnd : (docMapKeys m).Nodup := hnd0 (by simp [docMapKeys])
    refine ⟨?_, ?_, ?_⟩
    · have hperm : (docMapKeys m).Perm (allRowKeys sheet languages).dedup := by
        refine (List.perm_ext_iff_of_nodup hnd (List.nodup_dedup _)).mpr ?_
        intro k
        rw [hmem k, List.mem_dedup]
      calc (m.map fun e => e.2 ++ [⟨fsk, .u64 key⟩, ⟨frid, .u64 e.1.1.val⟩,
            ⟨fsid, .u64 e.1.2.val⟩]).length
          = m.length := List.length_map ..
        _ = (docMapKeys m).length := (List.length_map ..).symm
        _ = (allRowKeys sheet languages).dedup.length := hperm.length_eq
    · intro d hd
      obtain ⟨e, he, rfl⟩ := List.mem_map.mp hd
      refine ⟨by simp, e.1, ?_, by simp, by simp⟩
      exact (hmem e.1).mp (List.mem_map.mpr ⟨e, he, rfl⟩)
    · intro rk hrk
      obtain ⟨e, he, hek⟩ := List.mem_map.mp ((hmem rk).mpr hrk)
      subst hek
      exact ⟨_, List.mem_map.mpr ⟨e, he, rfl⟩, by simp, by simp, by simp⟩

/-- A sheet whose two languages carry the same (row 1, subrow 0) row: the
accumulated batch holds a single document for it. -/
def twoLangSheet : Sheet :=
  ⟨"two", .ok ["c"], .ok [.en, .de], fun _ => [goodRow]⟩

/-- Witness for C4: two languages, one shared RowKey, exactly one document. -/
theorem sheet_documents_accumulation_witness :
    sheet_documents 3 twoLangSheet flatSchema =
      .ok [[⟨0, .u64 3⟩, ⟨0, .u64 3⟩, ⟨0, .u64 3⟩, ⟨0, .u64 1⟩,
        ⟨0, .u64 0⟩]] ∧
    ([[⟨0, .u64 3⟩, ⟨0, .u64 3⟩, ⟨0, .u64 3⟩, ⟨0, .u64 1⟩,
        ⟨0, .u64 0⟩]] : List Doc).length =
      (allRowKeys twoLangSheet [.en, .de]).dedup.length := by
  refine ⟨rfl, ?_⟩
  exact (sheet_documents_accumulation 3 twoLangSheet flatSchema _ ["c"]
    [.en, .de] rfl rfl 0 0 0 rfl rfl rfl rfl).1

/-! ## C9 -/

theorem lookupVersion_mem (versions : List VersionNode) (name : String)
    (v : VersionNode) (h : lookupVersion versions name = some v) :
    v ∈ versions ∧ v.version_string = name := by
  unfold lookupVersion at h
  refine ⟨List.mem_reverse.mp (List.mem_of_find?_eq_some h), ?_⟩
  have hp := List.find?_some h
  simpa using hp

theorem selectNext_go_mem (l : List VersionNode) (acc : Option VersionNode)
    (w : VersionNode)
    (h : l.foldl (fun acc v =>
      match acc with
      | none => some v
      | some u =>
        if u.version_string < v.version_string then some v else some u)
      acc = some w) : acc = some w ∨ w ∈ l := by
  induction l generalizing acc with
  | nil => exact .inl h
  | cons v rest ih =>
    simp only [List.foldl_cons] at h
    cases acc with
    | none =>
      dsimp only at h
      rcases ih _ h with hacc | hm
      · injection hacc with h2
        subst h2
        exact .inr (List.mem_cons_self ..)
      · exact .inr (List.mem_cons_of_mem _ hm)
    | some u =>
      dsimp only at h
      by_cases hlt : u.version_string < v.version_string
      · rw [if_pos hlt] at h
        rcases ih _ h with hacc | hm
        · injection hacc with h2
          subst h2
          exact .inr (List.mem_cons_self ..)
        · exact .inr (List.mem_cons_of_mem _ hm)
      · rw [if_neg hlt] at h
        rcases ih _ h with hacc | hm
        · exact .inl hacc
        · exact .inr (List.mem_cons_of_mem _ hm)

theorem selectNext_mem (l : List VersionNode) (w : VersionNode)
    (h : selectNext l = some w) : w ∈ l := by
  rcases selectNext_go_mem l none w h with hacc | hm
  · exact Option.noConfusion hacc
  · exact hm

/-- Recorded-name bookkeeping: the `!patches.iter().any(..)` filter rejects
exactly the names already recorded. -/
theorem any_name_eq_false_iff (patches : List Patch) (s : String) :
    ((patches.any fun p => p.name == s) = false) ↔
      s ∉ patches.map Patch.name := by
  induction patches with
  | nil => simp
  | cons p rest ih =>
    simp only [List.any_cons, Bool.or_eq_false_iff, List.map_cons,
      List.mem_cons, ih, beq_eq_false_iff_ne]
    constructor
    · rintro ⟨h1, h2⟩ (rfl | hm)
      · exact h1 rfl
      · exact h2 hm
    · intro h
      exact ⟨fun he => h (.inl he.symm), fun hm => h (.inr hm)⟩

theorem length_filter_lt {α : Type} (l : List α) (p q : α → Bool) (x : α)
    (hx : x ∈ l) (hpx : p x = true) (hqx : q x = false)
    (himp : ∀ a, q a = true → p a = true) :
    (l.filter q).length < (l.filter p).length := by
  have hsub : List.Sublist (l.filter q) (l.filter p) :=
    List.monotone_filter_right l himp
  have hxp : x ∈ l.filter p := List.mem_filter.mpr ⟨hx, hpx⟩
  have hxq : x ∉ l.filter q := by
    intro hmem
    rw [(List.mem_filter.mp hmem).2] at hqx
    exact Bool.noConfusion hqx
  rcases Nat.lt_or_ge (l.filter q).length (l.filter p).length with hlt | hge
  · exact hlt
  · exfalso
    have heq := hsub.eq_of_length (le_antisymm hsub.length_le hge)
    rw [heq] at hxq
    exact hxq hxp

/-- The chain walk never exhausts a fuel exceeding the number of versions
not yet recorded: every iteration records a patch named by a version present
in the lookup table and not yet recorded, and prerequisite candidates with
recorded names are filtered out, so no version is visited twice. -/
theorem patchListGo_isSome (versions : List VersionNode) :
    ∀ (fuel : Nat) (patches : List Patch) (cur : Option VersionNode),
    (∀ v, cur = some v → v ∈ versions ∧
      (patches.any fun p => p.name == v.version_string) = false) →
    (patches.map Patch.name).Nodup →
    (versions.filter fun v =>
      !(patches.any fun p => p.name == v.version_string)).length < fuel →
    ∃ res, patchListGo versions fuel patches cur = some res ∧
      ∀ l, res = .ok l → (l.map Patch.name).Nodup := by
  intro fuel
  induction fuel with
  | zero => intro patches cur _ _ hfuel; exact absurd hfuel (Nat.not_lt_zero _)
  | succ fuel ih =>
    intro patches cur hcur hnodup hfuel
    cases cur with
    | none =>
      refine ⟨.ok patches, rfl, ?_⟩
      intro l hl
      injection hl with hl
      subst hl
      exact hnodup
    | some v =>
      obtain ⟨hvmem, hvnot⟩ := hcur v rfl
      cases hpat : v.patches.head? with
      | none =>
        exact ⟨.error ("no patches for version " ++ v.version_string),
          by simp [patchListGo, hpat], fun l hl => Except.noConfusion hl⟩
      | some patch =>
        have hgo : patchListGo versions (fuel + 1) patches (some v) =
            patchListGo versions fuel (nextPatches patches v patch)
              (nextVersion versions (nextPatches patches v patch) v) := by
          simp only [patchListGo, hpat]
        have hnames : (nextPatches patches v patch).map Patch.name =
            patches.map Patch.name ++ [v.version_string] := by
          simp [nextPatches]
        have hcur2 : ∀ w,
            nextVersion versions (nextPatches patches v patch) v = some w →
            w ∈ versions ∧ ((nextPatches patches v patch).any
              fun p => p.name == w.version_string) = false := by
          intro w hw
          have hwmem := selectNext_mem _ _ hw
          have hwmem2 := (List.mem_filter.mp hwmem).1
          obtain ⟨s, hs, hlook⟩ := List.mem_filterMap.mp hwmem2
          obtain ⟨hwin, hwname⟩ := lookupVersion_mem versions s w hlook
          obtain ⟨-, hsnot⟩ := List.mem_filter.mp hs
          rw [Bool.not_eq_true'] at hsnot
          exact ⟨hwin, hwname ▸ hsnot⟩
        have hnodup2 : ((nextPatches patches v patch).map Patch.name).Nodup := by
          rw [hnames]
          apply List.Nodup.append hnodup (by simp)
          intro a ha hb
          rw [List.mem_singleton] at hb
          subst hb
          exact (any_name_eq_false_iff patches v.version_string).mp hvnot ha
        have himp : ∀ a : VersionNode,
            (!((nextPatches patches v patch).any
              fun p => p.name == a.version_string)) = true →
            (!(patches.any fun p => p.name == a.version_string)) = true := by
          intro a ha
          rw [Bool.not_eq_true'] at ha
          rw [Bool.not_eq_true']
          rw [nextPatches, List.any_append] at ha
          exact (Bool.or_eq_false_iff.mp ha).1
        have hfuel2 : (versions.filter fun w =>
            !((nextPatches patches v patch).any
              fun p => p.name == w.version_string)).length < fuel := by
          have hlt := length_filter_lt versions
            (fun w => !(patches.any fun p => p.name == w.version_string))
            (fun w => !((nextPatches patches v patch).any
              fun p => p.name == w.version_string))
            v hvmem
            (by
              show (!(patches.any fun p => p.name == v.version_string)) = true
              rw [hvnot]
              rfl)
            (by
              show (!((nextPatches patches v patch).any
                fun p => p.name == v.version_string)) = false
              rw [Bool.not_eq_false']
              rw [nextPatches, List.any_append]
              have hone : ([(⟨v.version_string, patch.url, patch.size⟩ :
                  Patch)].any fun p => p.name == v.version_string) = true := by
                simp
              rw [hone, Bool.or_true])
            himp
          omega
        obtain ⟨res, hres, hconc⟩ := ih (nextPatches patches v patch) _
          hcur2 hnodup2 hfuel2
        exact ⟨res, hgo ▸ hres, hconc⟩

/-- C9: `Provider::patch_list`'s version walk terminates on every finite
response — at most one iteration per known version, since recorded names are
never revisited — and an `Ok` outcome is a non-empty patch list (oldest
first after the final reversal) naming each version at most once. -/
theorem patch_list_terminates (data : ResponseData) :
    ∃ out, patch_list data = some out ∧
      ∀ l, out = .ok l → l ≠ [] ∧ (l.map Patch.name).Nodup := by
  obtain ⟨res, hres, hconc⟩ := patchListGo_isSome data.versions
    (data.versions.length + 1) []
    (lookupVersion data.versions data.latest_version)
    (fun v hv => ⟨(lookupVersion_mem _ _ _ hv).1, rfl⟩)
    (by simp)
    (Nat.lt_succ_of_le (List.length_filter_le _ _))
  rw [patch_list, hres]
  cases res with
  | error s =>
    refine ⟨.error s, rfl, ?_⟩
    intro l hl
    exact Except.noConfusion hl
  | ok patches =>
    have hnd : (patches.map Patch.name).Nodup := hconc patches rfl
    cases hrev : patches.reverse with
    | nil =>
      refine ⟨.error ("could not build patch list starting at " ++
        data.latest_version), by simp [Option.map, Except.bind, hrev], ?_⟩
      intro l hl
      exact Except.noConfusion hl
    | cons p ps =>
      refine ⟨.ok (p :: ps), by simp [Option.map, Except.bind, hrev], ?_⟩
      intro l hl
      injection hl with hl
      subst hl
      refine ⟨by simp, ?_⟩
      rw [← hrev, List.map_reverse, List.nodup_reverse]
      exact hnd

def sampleResponse : ResponseData :=
  ⟨"2", [⟨"1", [⟨"u1", 5⟩], [], true⟩, ⟨"2", [⟨"u2", 7⟩], ["1"], true⟩]⟩

/-- Witness for C9 on a two-version chain. -/
theorem patch_list_terminates_witness :
    (patch_list sampleResponse).isSome = true := by
  obtain ⟨out, hout, -⟩ := patch_list_terminates sampleResponse
  rw [hout]
  rfl

/-! ## C10 -/

theorem insertSorted_perm {V : Type} (a : String × V)
    (l : List (String × V)) : (insertSorted a l).Perm (a :: l) := by
  induction l with
  | nil => exact List.Perm.refl _
  | cons b rest ih =>
    simp only [insertSorted]
    by_cases h : b.1 < a.1
    · rw [if_pos h]
      exact (ih.cons b).trans (List.Perm.swap a b rest)
    · rw [if_neg h]

theorem sortByKey_perm {V : Type} (l : List (String × V)) :
    (sortByKey l).Perm l := by
  induction l with
  | nil => exact List.Perm.refl _
  | cons a rest ih =>
    exact (insertSorted_perm a (sortByKey rest)).trans (ih.cons a)

theorem insertSorted_pairwise {V : Type} (a : String × V)
    (l : List (String × V))
    (h : l.Pairwise fun x y => x.1 ≤ y.1) :
    (insertSorted a l).Pairwise fun x y => x.1 ≤ y.1 := by
  induction l with
  | nil => simp [insertSorted]
  | cons b rest ih =>
    rw [List.pairwise_cons] at h
    obtain ⟨hb, hrest⟩ := h
    simp only [insertSorted]
    by_cases hlt : b.1 < a.1
    · rw [if_pos hlt]
      rw [List.pairwise_cons]
      refine ⟨?_, ih hrest⟩
      intro x hx
      rcases List.mem_cons.mp ((insertSorted_perm a rest).mem_iff.mp hx)
        with rfl | hxr
      · exact le_of_lt hlt
      · exact hb x hxr
    · rw [if_neg hlt]
      rw [List.pairwise_cons]
      refine ⟨?_, List.pairwise_cons.mpr ⟨hb, hrest⟩⟩
      intro x hx
      rcases List.mem_cons.mp hx with rfl | hxr
      · exact le_of_not_lt hlt
      · exact le_trans (le_of_not_lt hlt) (hb x hxr)

theorem sortByKey_pairwise {V : Type} (l : List (String × V)) :
    (sortByKey l).Pairwise fun x y => x.1 ≤ y.1 := by
  induction l with
  | nil => simp [sortByKey]
  | cons a rest ih => exact insertSorted_pairwise a (sortByKey rest) ih

instance instKeyLtAntisymm {V : Type} :
    IsAntisymm (String × V) fun x y => x.1 < y.1 :=
  ⟨fun _ _ h1 h2 => absurd h2 (lt_asymm h1)⟩

theorem sorted_nodup_perm_eq {V : Type} (l₁ l₂ : List (String × V))
    (hp : l₁.Perm l₂)
    (h₁ : l₁.Pairwise fun x y => x.1 ≤ y.1)
    (h₂ : l₂.Pairwise fun x y => x.1 ≤ y.1)
    (hnd : (l₁.map Prod.fst).Nodup) : l₁ = l₂ := by
  have hne₁ : l₁.Pairwise fun x y => x.1 ≠ y.1 :=
    (List.pairwise_map.mp hnd)
  have hnd₂ : (l₂.map Prod.fst).Nodup := ((hp.map Prod.fst).nodup_iff).mp hnd
  have hne₂ : l₂.Pairwise fun x y => x.1 ≠ y.1 :=
    (List.pairwise_map.mp hnd₂)
  have hlt₁ : l₁.Pairwise fun x y => x.1 < y.1 :=
    (h₁.and hne₁).imp fun h => lt_of_le_of_ne h.1 h.2
  have hlt₂ : l₂.Pairwise fun x y => x.1 < y.1 :=
    (h₂.and hne₂).imp fun h => lt_of_le_of_ne h.1 h.2
  exact List.eq_of_perm_of_sorted hp hlt₁ hlt₂

/-- Two distinct `StructKey`s whose serialized key strings collide under
display language `en`: `("foo@de", en)` serializes to the bare name
`"foo@de"` while `("foo", de)` serializes to `"foo" ++ "@" ++ "de"`. -/
def c10fields1 : List (StructKey × Nat) :=
  [(⟨"foo@de", .en⟩, 1), (⟨"foo", .de⟩, 2)]

def c10fields2 : List (StructKey × Nat) :=
  [(⟨"foo", .de⟩, 2), (⟨"foo@de", .en⟩, 1)]

/-- Counterexample to C10 as stated: the same struct map (the same
key / value pairs), iterated in two different orders, serializes to two
different entry sequences, because the two distinct `StructKey`s produce the
same key string and the key-only sort cannot order them. -/
theorem serialize_struct_order_dependent :
    c10fields1.Perm c10fields2 ∧
    structEntries Language.en c10fields1 ≠
      structEntries Language.en c10fields2 := by
  have hstep : ∀ v w : Nat, insertSorted ("foo@de", v) [("foo@de", w)] =
      [("foo@de", v), ("foo@de", w)] := by
    intro v w
    show (if ("foo@de" : String) < "foo@de" then _ else _) = _
    rw [if_neg (lt_irrefl _)]
  have heval : ∀ v w : Nat,
      sortByKey [(("foo@de" : String), v), ("foo@de", w)] =
        [("foo@de", v), ("foo@de", w)] := by
    intro v w
    show insertSorted ("foo@de", v) (insertSorted ("foo@de", w) []) = _
    rw [show insertSorted (("foo@de" : String), w) [] = [("foo@de", w)]
      from rfl]
    exact hstep v w
  constructor
  · exact List.Perm.swap _ _ _
  · have h1 : structEntries Language.en c10fields1 =
        [("foo@de", 1), ("foo@de", 2)] := by
      show sortByKey [(("foo@de" : String), 1), ("foo@de", 2)] = _
      exact heval 1 2
    have h2 : structEntries Language.en c10fields2 =
        [("foo@de", 2), ("foo@de", 1)] := by
      show sortByKey [(("foo@de" : String), 2), ("foo@de", 1)] = _
      exact heval 2 1
    rw [h1, h2]
    simp

/-- C10 (amended): provided the serialized key strings of the struct's
fields are pairwise distinct, serialization is independent of the HashMap's
iteration order; the emitted entries are always sorted in ascending key
order, and every field appears under the bare name when its language is the
display language and under `name@<language>` otherwise. -/
theorem serialize_struct_deterministic {V : Type} (display : Language)
    (l₁ l₂ : List (StructKey × V)) (hp : l₁.Perm l₂)
    (hkeys : (l₁.map fun kv => structKeyString display kv.1).Nodup) :
    structEntries display l₁ = structEntries display l₂ ∧
    ((structEntries display l₁).Pairwise fun a b => a.1 ≤ b.1) ∧
    ∀ kv ∈ l₁,
      (structKeyString display kv.1, kv.2) ∈ structEntries display l₁ ∧
      structKeyString display kv.1 =
        (if kv.1.language = display then kv.1.name
         else kv.1.name ++ "@" ++ languageString kv.1.language) := by
  have hm : (l₁.map fun kv => (structKeyString display kv.1, kv.2)).Perm
      (l₂.map fun kv => (structKeyString display kv.1, kv.2)) :=
    hp.map _
  have hs₁ := sortByKey_perm (l₁.map fun kv => (structKeyString display kv.1, kv.2))
  have hs₂ := sortByKey_perm (l₂.map fun kv => (structKeyString display kv.1, kv.2))
  have hndfst : ((l₁.map fun kv =>
      (structKeyString display kv.1, kv.2)).map Prod.fst).Nodup := by
    rw [List.map_map]
    exact hkeys
  refine ⟨?_, sortByKey_pairwise _, ?_⟩
  · apply sorted_nodup_perm_eq _ _ ((hs₁.trans hm).trans hs₂.symm)
      (sortByKey_pairwise _) (sortByKey_pairwise _)
    exact (hs₁.map Prod.fst).nodup_iff.mpr hndfst
  · intro kv hkv
    refine ⟨?_, rfl⟩
    exact hs₁.symm.subset (List.mem_map.mpr ⟨kv, hkv, rfl⟩)

def c10w1 : List (StructKey × Nat) := [(⟨"a", .en⟩, 1), (⟨"b", .de⟩, 2)]

def c10w2 : List (StructKey × Nat) := [(⟨"b", .de⟩, 2), (⟨"a", .en⟩, 1)]

/-- Witness for the amended C10: with distinct serialized keys
(`"a"` and `"b@de"`), both iteration orders serialize identically. -/
theorem serialize_struct_deterministic_witness :
    structEntries Language.en c10w1 = structEntries Language.en c10w2 :=
  (serialize_struct_deterministic Language.en c10w1 c10w2
    (List.Perm.swap _ _ _) (by decide)).1

end Boilmaster
